import Mathlib

/-!
Shallow embedding of `clean_report.py` and `test-environment/gen_jwt.py`.

Text is modelled as `List Char`.  Python's `str.split`, `str.replace`,
`x in s`, `re.search(r'- \*\*Issues Found:\*\* (\d+)', s)`, `int(...)` and
f-string rendering of `int` are modelled by executable functions below.
Recursive string scans use an explicit fuel argument (`fuel ≥ length` always
holds at the call sites) so that every definition is structurally recursive
and evaluable by the kernel.  Python's `\d` is modelled as an ASCII decimal
digit; the inputs the script handles are ASCII reports.
-/

namespace CleanReport

/-- Characters of a string literal. -/
def toL (s : String) : List Char := s.toList

/-- The marker substring of line 33 of `clean_report.py`. -/
def MAGIC : List Char := toL "#### Magic value"

/-- The block separator of line 18 (`content.split('\n---')`). -/
def SEPARATOR : List Char := toL "\n---"

/-- The literal label of the summary-line pattern (lines 44 and 48). -/
def ISSUES_LABEL : List Char := toL "- **Issues Found:** "

/-- Python's substring test `needle in haystack`. -/
def containsSub (needle : List Char) : List Char → Bool
  | [] => needle.isEmpty
  | c :: rest => needle.isPrefixOf (c :: rest) || containsSub needle rest

/-- Python's `content.split(sep)` for a non-empty `sep`, with fuel. -/
def splitOnAux (sep : List Char) : Nat → List Char → List (List Char)
  | _, [] => [[]]
  | 0, l => [l]
  | fuel+1, c :: rest =>
    if sep.isPrefixOf (c :: rest) then
      [] :: splitOnAux sep fuel ((c :: rest).drop sep.length)
    else
      match splitOnAux sep fuel rest with
      | [] => [[]]
      | h :: t => (c :: h) :: t

/-- Python's `content.split(sep)`. -/
def splitOn (content sep : List Char) : List (List Char) :=
  splitOnAux sep content.length content

/-- Python's `sep.join(parts)`. -/
def joinSep (sep : List Char) : List (List Char) → List Char
  | [] => []
  | [p] => p
  | p :: q :: rest => p ++ sep ++ joinSep sep (q :: rest)

/-- Python's `s.replace(old, new)` (replaces every non-overlapping
occurrence, scanning left to right), with fuel. -/
def replaceAllAux (old new : List Char) : Nat → List Char → List Char
  | _, [] => []
  | 0, l => l
  | fuel+1, c :: rest =>
    if old.isPrefixOf (c :: rest) then
      new ++ replaceAllAux old new fuel ((c :: rest).drop old.length)
    else
      c :: replaceAllAux old new fuel rest

/-- Python's `s.replace(old, new)` for non-empty `old`. -/
def pyReplace (s old new : List Char) : List Char :=
  replaceAllAux old new s.length s

/-- The decimal digit character of `n % 10`-style values. -/
def digitChar : Nat → Char
  | 0 => '0' | 1 => '1' | 2 => '2' | 3 => '3' | 4 => '4'
  | 5 => '5' | 6 => '6' | 7 => '7' | 8 => '8' | _ => '9'

/-- Decimal rendering of a natural number, with fuel. -/
def natReprAux : Nat → Nat → List Char
  | 0, _ => []
  | fuel+1, n =>
    if n < 10 then [digitChar n] else natReprAux fuel (n / 10) ++ [digitChar (n % 10)]

/-- Python's `str(n)` / `f"{n}"` for a non-negative int. -/
def natRepr (n : Nat) : List Char := natReprAux (n + 1) n

/-- Python's `str(i)` / `f"{i}"` for an int (possibly negative). -/
def intRepr : Int → List Char
  | Int.ofNat n => natRepr n
  | Int.negSucc n => '-' :: natRepr (n + 1)

/-- Python's `int(ds)` on a string of decimal digits. -/
def natOfDigits (ds : List Char) : Nat :=
  ds.foldl (fun n c => 10 * n + (c.toNat - 48)) 0

/-- `re.search(r'- \*\*Issues Found:\*\* (\d+)', s)` (line 44): the digit
group of the leftmost occurrence of the label followed by at least one
digit, or `none`. -/
def findIssuesCount : List Char → Option (List Char)
  | [] => none
  | c :: rest =>
    if ISSUES_LABEL.isPrefixOf (c :: rest) ∧
        ((c :: rest).drop ISSUES_LABEL.length).takeWhile Char.isDigit ≠ [] then
      some (((c :: rest).drop ISSUES_LABEL.length).takeWhile Char.isDigit)
    else findIssuesCount rest

/-- Line 18 of `clean_report.py`: `parts = content.split('\n---')`. -/
def parts (content : List Char) : List (List Char) := splitOn content SEPARATOR

/-- Lines 29-37: the parts kept by the loop (those not containing the
marker), in their original order. -/
def kept_parts (content : List Char) : List (List Char) :=
  (parts content).filter (fun part => ! containsSub MAGIC part)

/-- Lines 29-37: `magic_value_count`, the number of discarded parts. -/
def magic_value_count (content : List Char) : Nat :=
  ((parts content).filter (fun part => containsSub MAGIC part)).length

/-- Line 40: `new_content = '\n---'.join(kept_parts)`. -/
def new_content (content : List Char) : List Char :=
  joinSep SEPARATOR (kept_parts content)

/-- Lines 18-48 plus 63 of `clean_report.py`: the rewritten report text and
the removed-block count.  File I/O (lines 5-6 and 62-63) is abstracted to a
content-in / content-out function. -/
def filter_report (content : List Char) : List Char × Nat :=
  let nc := new_content content
  let removed := magic_value_count content
  match findIssuesCount nc with
  | some ds =>
    let original_count := natOfDigits ds
    let new_count : Int := (original_count : Int) - (removed : Int)
    (pyReplace nc (ISSUES_LABEL ++ natRepr original_count)
      (ISSUES_LABEL ++ intRepr new_count), removed)
  | none => (nc, removed)

/-- Lines 65-70 of `clean_report.py`: the `__main__` block.  `argv` is
`sys.argv` (program name included) and `inputContent` is the text the
input file would hold; the result records the process exit code, whether
the usage message was printed, and — when the filter runs — the text
written to the output file together with the removed count printed to
standard output. -/
def cliMain (argv : List (List Char)) (inputContent : List Char) :
    Nat × Bool × Option (List Char × Nat) :=
  if argv.length < 3 then (1, true, none)
  else (0, false, some (filter_report inputContent))

/-- Scenario A input of the spec (section 8). -/
def scenarioA : List Char :=
  toL "Header\n- **Issues Found:** 3\n---\n#### Magic value\nfoo\n---\nOK block"

/-- A report with no magic-value block. -/
def scenarioB : List Char :=
  toL "Header\n- **Issues Found:** 0\n---\nA\n---\nB"

end CleanReport

namespace GenJwt

open CleanReport (toL natRepr natReprAux digitChar)

/-- Bytes of an ASCII string (`.encode()` in `gen_jwt.py`: every string
involved is ASCII, so its UTF-8 bytes are its code points). -/
def charBytes (s : List Char) : List Nat := s.map Char.toNat

/-- The URL-safe base64 alphabet character (RFC 4648 §5) of a 6-bit value
(values above 63 do not arise from byte input). -/
def b64c : Nat → Char
  | 0 => 'A' | 1 => 'B' | 2 => 'C' | 3 => 'D' | 4 => 'E' | 5 => 'F'
  | 6 => 'G' | 7 => 'H' | 8 => 'I' | 9 => 'J' | 10 => 'K' | 11 => 'L'
  | 12 => 'M' | 13 => 'N' | 14 => 'O' | 15 => 'P' | 16 => 'Q' | 17 => 'R'
  | 18 => 'S' | 19 => 'T' | 20 => 'U' | 21 => 'V' | 22 => 'W' | 23 => 'X'
  | 24 => 'Y' | 25 => 'Z' | 26 => 'a' | 27 => 'b' | 28 => 'c' | 29 => 'd'
  | 30 => 'e' | 31 => 'f' | 32 => 'g' | 33 => 'h' | 34 => 'i' | 35 => 'j'
  | 36 => 'k' | 37 => 'l' | 38 => 'm' | 39 => 'n' | 40 => 'o' | 41 => 'p'
  | 42 => 'q' | 43 => 'r' | 44 => 's' | 45 => 't' | 46 => 'u' | 47 => 'v'
  | 48 => 'w' | 49 => 'x' | 50 => 'y' | 51 => 'z' | 52 => '0' | 53 => '1'
  | 54 => '2' | 55 => '3' | 56 => '4' | 57 => '5' | 58 => '6' | 59 => '7'
  | 60 => '8' | 61 => '9' | 62 => '-' | _ => '_'

/-- `base64.urlsafe_b64encode(data).rstrip(b'=')`, the `b64url` helper of
`gen_jwt.py` (lines 4-5): 3-byte groups become 4 alphabet characters; a
trailing 1-byte group becomes 2 characters and a trailing 2-byte group 3
characters (the `=` padding is stripped). -/
def b64urlEncode : List Nat → List Char
  | [] => []
  | [b1] => [b64c (b1 / 4), b64c (b1 % 4 * 16)]
  | [b1, b2] =>
    [b64c (b1 / 4), b64c (b1 % 4 * 16 + b2 / 16), b64c (b2 % 16 * 4)]
  | b1 :: b2 :: b3 :: rest =>
    b64c (b1 / 4) :: b64c (b1 % 4 * 16 + b2 / 16) ::
      b64c (b2 % 16 * 4 + b3 / 64) :: b64c (b3 % 64) :: b64urlEncode rest

/-- The 6-bit value of a URL-safe base64 alphabet character (non-alphabet
characters map to 0). -/
def b64v : Char → Nat
  | 'A' => 0 | 'B' => 1 | 'C' => 2 | 'D' => 3 | 'E' => 4 | 'F' => 5
  | 'G' => 6 | 'H' => 7 | 'I' => 8 | 'J' => 9 | 'K' => 10 | 'L' => 11
  | 'M' => 12 | 'N' => 13 | 'O' => 14 | 'P' => 15 | 'Q' => 16 | 'R' => 17
  | 'S' => 18 | 'T' => 19 | 'U' => 20 | 'V' => 21 | 'W' => 22 | 'X' => 23
  | 'Y' => 24 | 'Z' => 25 | 'a' => 26 | 'b' => 27 | 'c' => 28 | 'd' => 29
  | 'e' => 30 | 'f' => 31 | 'g' => 32 | 'h' => 33 | 'i' => 34 | 'j' => 35
  | 'k' => 36 | 'l' => 37 | 'm' => 38 | 'n' => 39 | 'o' => 40 | 'p' => 41
  | 'q' => 42 | 'r' => 43 | 's' => 44 | 't' => 45 | 'u' => 46 | 'v' => 47
  | 'w' => 48 | 'x' => 49 | 'y' => 50 | 'z' => 51 | '0' => 52 | '1' => 53
  | '2' => 54 | '3' => 55 | '4' => 56 | '5' => 57 | '6' => 58 | '7' => 59
  | '8' => 60 | '9' => 61 | '-' => 62 | '_' => 63 | _ => 0

/-- Base64url decoding of an unpadded segment (the operation the claim
performs on the second dot-segment): 4 characters yield 3 bytes, a
trailing 3 characters yield 2 bytes and a trailing 2 characters 1 byte. -/
def b64urlDecode : List Char → List Nat
  | [] => []
  | [c1, c2] => [b64v c1 * 4 + b64v c2 / 16]
  | [c1, c2, c3] =>
    [b64v c1 * 4 + b64v c2 / 16, b64v c2 % 16 * 16 + b64v c3 / 4]
  | c1 :: c2 :: c3 :: c4 :: rest =>
    (b64v c1 * 4 + b64v c2 / 16) :: (b64v c2 % 16 * 16 + b64v c3 / 4) ::
      (b64v c3 % 4 * 64 + b64v c4) :: b64urlDecode rest
  | [_] => []

/-- `json.dumps({'alg': 'HS256', 'typ': 'JWT'})` (line 7 of `gen_jwt.py`;
`json.dumps` uses `", "` and `": "` separators and keeps key order). -/
def headerJson : List Char := toL "\x7b\"alg\": \"HS256\", \"typ\": \"JWT\"\x7d"

/-- `json.dumps` of the payload dict of lines 8-14 as a function of the
generation time `now = int(time.time())`: the `exp` field is `now + 3600`. -/
def payloadJson (now : Nat) : List Char :=
  toL "\x7b\"sub\": \"jwt-user-123\", \"scope\": \"read:files\", \"iss\": \"https://test.mcp-guard.io\", \"aud\": \"mcp-guard\", \"exp\": " ++
    natRepr (now + 3600) ++ toL "\x7d"

/-- The printed token `f'{header}.{payload}.{signature}'` (lines 16-19).
The HMAC-SHA256 digest of line 17 is kept abstract as the byte-list
parameter `sig`; the claim is independent of the signature bytes. -/
def token (sig : List Nat) (now : Nat) : List Char :=
  b64urlEncode (charBytes headerJson) ++
    '.' :: (b64urlEncode (charBytes (payloadJson now)) ++
      '.' :: b64urlEncode sig)

/-- Splitting on `'.'`, used to read off the dot-segments of the token. -/
def dotSplit : List Char → List (List Char)
  | [] => [[]]
  | c :: rest =>
    if c = '.' then [] :: dotSplit rest
    else
      match dotSplit rest with
      | [] => [[c]]
      | h :: t => (c :: h) :: t

end GenJwt

namespace CleanReport

theorem containsSub_iff (needle l : List Char) :
    containsSub needle l = true ↔ needle <:+: l := by
  induction l with
  | nil =>
    simp [containsSub, List.isEmpty_iff]
  | cons c rest ih =>
    simp [containsSub, ih, List.infix_cons_iff, Bool.or_eq_true,
      List.isPrefixOf_iff_prefix]

theorem splitOnAux_ne_nil (sep : List Char) (f : Nat) (l : List Char) :
    splitOnAux sep f l ≠ [] := by
  match f, l with
  | _, [] => simp [splitOnAux]
  | 0, c :: rest => simp [splitOnAux]
  | f+1, c :: rest =>
    simp only [splitOnAux]
    split
    · simp
    · split <;> simp

theorem joinSep_cons_cons (sep p q : List Char) (rest : List (List Char)) :
    joinSep sep (p :: q :: rest) = p ++ sep ++ joinSep sep (q :: rest) := rfl

theorem joinSep_cons_of_ne_nil (sep p : List Char) (ps : List (List Char))
    (h : ps ≠ []) : joinSep sep (p :: ps) = p ++ sep ++ joinSep sep ps := by
  match ps with
  | [] => exact absurd rfl h
  | q :: rest => rfl

theorem prefix_drop_append {sep l : List Char} (h : sep <+: l) :
    sep ++ l.drop sep.length = l :=
  List.prefix_iff_eq_append.mp h

theorem joinSep_splitOnAux (sep : List Char) (hsep : sep ≠ []) :
    ∀ f l, l.length ≤ f → joinSep sep (splitOnAux sep f l) = l := by
  intro f
  induction f with
  | zero =>
    intro l hl
    have hnil : l = [] := List.length_eq_zero.mp (Nat.le_zero.mp hl)
    subst hnil
    rfl
  | succ f ih =>
    intro l hl
    match l with
    | [] => rfl
    | c :: rest =>
      simp only [splitOnAux]
      by_cases hpre : sep.isPrefixOf (c :: rest)
      · simp only [hpre, if_true]
        have hp : sep <+: (c :: rest) := List.isPrefixOf_iff_prefix.mp hpre
        have hdl : ((c :: rest).drop sep.length).length ≤ f := by
          have h1 : 1 ≤ sep.length := by
            cases sep with
            | nil => exact absurd rfl hsep
            | cons a s => simp
          simp only [List.length_drop]
          omega
        rw [joinSep_cons_of_ne_nil sep [] _ (splitOnAux_ne_nil sep f _),
          ih _ hdl, List.nil_append]
        exact prefix_drop_append hp
      · rw [if_neg hpre]
        have hne := splitOnAux_ne_nil sep f rest
        obtain ⟨h, t, hsplit⟩ : ∃ h t, splitOnAux sep f rest = h :: t := by
          match hx : splitOnAux sep f rest with
          | [] => exact absurd hx hne
          | a :: b => exact ⟨a, b, rfl⟩
        rw [hsplit]
        have hrest : joinSep sep (h :: t) = rest := by
          rw [← hsplit]
          exact ih rest (by simpa using Nat.le_of_succ_le_succ hl)
        match t with
        | [] =>
          simp only [joinSep] at hrest ⊢
          rw [hrest]
        | q :: t' =>
          rw [joinSep_cons_cons] at hrest ⊢
          simp only [List.cons_append, List.append_assoc] at hrest ⊢
          rw [hrest]

theorem joinSep_splitOn (content sep : List Char) (hsep : sep ≠ []) :
    joinSep sep (splitOn content sep) = content :=
  joinSep_splitOnAux sep hsep content.length content (Nat.le_refl _)

theorem splitOnAux_structure (sep : List Char) :
    ∀ f l, ∃ h t, splitOnAux sep f l = h :: t ∧ h <+: l ∧ ∀ p ∈ t, p <:+: l := by
  intro f
  induction f with
  | zero =>
    intro l
    match l with
    | [] => exact ⟨[], [], rfl, List.nil_prefix, by simp⟩
    | c :: rest => exact ⟨c :: rest, [], rfl, List.prefix_refl _, by simp⟩
  | succ f ih =>
    intro l
    match l with
    | [] => exact ⟨[], [], rfl, List.nil_prefix, by simp⟩
    | c :: rest =>
      by_cases hpre : sep.isPrefixOf (c :: rest)
      · refine ⟨[], splitOnAux sep f ((c :: rest).drop sep.length), ?_,
          List.nil_prefix, ?_⟩
        · simp only [splitOnAux, hpre, if_true]
        · intro p hp
          obtain ⟨h, t, heq, hhp, hti⟩ := ih ((c :: rest).drop sep.length)
          rw [heq] at hp
          have hdropinf : (c :: rest).drop sep.length <:+: c :: rest :=
            (List.drop_suffix _ _).isInfix
          rcases List.mem_cons.mp hp with rfl | hmem
          · exact hhp.isInfix.trans hdropinf
          · exact (hti p hmem).trans hdropinf
      · obtain ⟨h, t, heq, hhp, hti⟩ := ih rest
        refine ⟨c :: h, t, ?_, ?_, ?_⟩
        · simp only [splitOnAux, if_neg hpre, heq]
        · exact List.cons_prefix_cons.mpr ⟨rfl, hhp⟩
        · exact fun p hp => List.infix_cons (hti p hp)

theorem splitOn_parts_isInfix (content sep : List Char) :
    ∀ p ∈ splitOn content sep, p <:+: content := by
  intro p hp
  obtain ⟨h, t, heq, hhp, hti⟩ := splitOnAux_structure sep content.length content
  rw [splitOn, heq] at hp
  rcases List.mem_cons.mp hp with rfl | hmem
  · exact hhp.isInfix
  · exact hti p hmem

theorem mem_joinSep_isInfix (sep : List Char) (ps : List (List Char)) :
    ∀ p ∈ ps, p <:+: joinSep sep ps := by
  induction ps with
  | nil => simp
  | cons p rest ih =>
    intro q hq
    match rest with
    | [] =>
      rcases List.mem_cons.mp hq with rfl | hmem
      · exact List.infix_rfl
      · simp at hmem
    | r :: rest' =>
      rw [joinSep_cons_cons]
      rcases List.mem_cons.mp hq with rfl | hmem
      · rw [List.append_assoc]
        exact (List.prefix_append q (sep ++ joinSep sep (r :: rest'))).isInfix
      · have h1 : q <:+: joinSep sep (r :: rest') := ih q hmem
        have h2 : joinSep sep (r :: rest') <:+
            p ++ sep ++ joinSep sep (r :: rest') := List.suffix_append _ _
        exact h1.trans h2.isInfix

theorem infix_append_cases {α : Type} :
    ∀ (a : List α) (b pat : List α), pat <:+: a ++ b →
      pat <:+: a ∨ pat <:+: b ∨
        ∃ a₂ b₁, a₂ ≠ [] ∧ b₁ ≠ [] ∧ a₂ <:+ a ∧ b₁ <+: b ∧ pat = a₂ ++ b₁ := by
  intro a
  induction a with
  | nil =>
    intro b pat h
    right; left
    simpa using h
  | cons c a' ih =>
    intro b pat h
    rw [List.cons_append] at h
    rcases List.infix_cons_iff.mp h with hpre | hinf
    · obtain ⟨t, ht⟩ := hpre
      rw [← List.cons_append] at ht
      rcases List.append_eq_append_iff.mp ht with ⟨u, hx, _⟩ | ⟨v, hpat, hb⟩
      · exact Or.inl ⟨[], u, by simpa using hx.symm⟩
      · match v with
        | [] =>
          left
          rw [hpat, List.append_nil]
        | d :: v' =>
          right; right
          exact ⟨c :: a', d :: v', by simp, by simp, List.suffix_refl _,
            ⟨t, hb.symm⟩, hpat⟩
    · rcases ih b pat hinf with h1 | h2 | ⟨a₂, b₁, hne₂, hne₁, hsuf, hpre₁, hpat⟩
      · exact Or.inl (List.infix_cons h1)
      · exact Or.inr (Or.inl h2)
      · exact Or.inr (Or.inr ⟨a₂, b₁, hne₂, hne₁,
          List.suffix_cons_iff.mpr (Or.inr hsuf), hpre₁, hpat⟩)

/-- If the first character of `pat` does not occur in `sep` and the first
character of `sep` does not occur in `pat`, then `pat` occurs in a
`sep`-join only if it occurs in one of the joined parts. -/
theorem not_infix_joinSep (pc sc : Char) (pat₀ sep₀ : List Char)
    (ps : List (List Char))
    (hps : pc ∉ sc :: sep₀) (hsp : sc ∉ pc :: pat₀)
    (hparts : ∀ p ∈ ps, ¬ (pc :: pat₀) <:+: p) :
    ¬ (pc :: pat₀) <:+: joinSep (sc :: sep₀) ps := by
  induction ps with
  | nil =>
    intro h
    simp only [joinSep] at h
    exact absurd (List.infix_nil.mp h) (by simp)
  | cons p rest ih =>
    intro h
    match rest with
    | [] =>
      exact hparts p (List.mem_cons_self _ _) h
    | q :: rest' =>
      rw [joinSep_cons_cons, List.append_assoc] at h
      rcases infix_append_cases p _ _ h with h1 | h2 | ⟨a₂, b₁, hne₂, hne₁, _, hpre₁, hpat⟩
      · exact hparts p (List.mem_cons_self _ _) h1
      · rcases infix_append_cases (sc :: sep₀) _ _ h2 with
          g1 | g2 | ⟨a₂, b₁, hne₂, hne₁, hsuf, _, hpat⟩
        · exact hps (g1.subset (List.mem_cons_self _ _))
        · exact ih (fun r hr => hparts r (List.mem_cons_of_mem _ hr)) g2
        · cases a₂ with
          | nil => exact absurd rfl hne₂
          | cons x a₂' =>
            have hx : x = pc := by
              have := congrArg (fun l => l.head?) hpat
              simpa using this.symm
            subst hx
            exact hps (hsuf.subset (List.mem_cons_self _ _))
      · cases b₁ with
        | nil => exact absurd rfl hne₁
        | cons y b₁' =>
          have hy : y = sc := by
            rcases hpre₁ with ⟨t, ht⟩
            have := congrArg (fun l => l.head?) ht
            simpa using this
          have hmem : sc ∈ pc :: pat₀ := by
            rw [hpat, ← hy]
            exact List.mem_append_right _ (List.mem_cons_self _ _)
          exact hsp hmem

theorem replaceAllAux_eq_joinSep (old new : List Char) (hold : old ≠ []) :
    ∀ f s, s.length ≤ f →
      replaceAllAux old new f s = joinSep new (splitOnAux old f s) := by
  intro f
  induction f with
  | zero =>
    intro s hs
    have hnil : s = [] := List.length_eq_zero.mp (Nat.le_zero.mp hs)
    subst hnil
    rfl
  | succ f ih =>
    intro s hs
    match s with
    | [] => rfl
    | c :: rest =>
      simp only [replaceAllAux, splitOnAux]
      have hone : 1 ≤ old.length := by
        cases old with
        | nil => exact absurd rfl hold
        | cons a o => simp
      by_cases hpre : old.isPrefixOf (c :: rest)
      · rw [if_pos hpre, if_pos hpre,
          joinSep_cons_of_ne_nil new [] _ (splitOnAux_ne_nil old f _),
          List.nil_append]
        have hdl : ((c :: rest).drop old.length).length ≤ f := by
          simp only [List.length_drop]
          omega
        rw [ih _ hdl]
      · rw [if_neg hpre, if_neg hpre]
        obtain ⟨h, t, hsplit⟩ : ∃ h t, splitOnAux old f rest = h :: t := by
          match hx : splitOnAux old f rest with
          | [] => exact absurd hx (splitOnAux_ne_nil old f rest)
          | a :: b => exact ⟨a, b, rfl⟩
        rw [hsplit]
        have hrest : replaceAllAux old new f rest = joinSep new (h :: t) := by
          rw [← hsplit]
          exact ih rest (by simpa using Nat.le_of_succ_le_succ hs)
        match t with
        | [] =>
          simp only [joinSep] at hrest ⊢
          rw [hrest]
        | q :: t' =>
          rw [joinSep_cons_cons] at hrest ⊢
          simp only [List.cons_append, List.append_assoc] at hrest ⊢
          rw [hrest]

theorem pyReplace_eq_joinSep (s old new : List Char) (hold : old ≠ []) :
    pyReplace s old new = joinSep new (splitOn s old) :=
  replaceAllAux_eq_joinSep old new hold s.length s (Nat.le_refl _)

theorem pyReplace_self (s old : List Char) (hold : old ≠ []) :
    pyReplace s old old = s := by
  rw [pyReplace_eq_joinSep s old old hold]
  exact joinSep_splitOn s old hold

theorem infix_replaceAllAux (old new : List Char) (hold : old ≠ []) :
    ∀ f s, s.length ≤ f → old <:+: s →
      new <:+: replaceAllAux old new f s := by
  intro f
  induction f with
  | zero =>
    intro s hs hocc
    have hnil : s = [] := List.length_eq_zero.mp (Nat.le_zero.mp hs)
    subst hnil
    exact absurd (List.infix_nil.mp hocc) hold
  | succ f ih =>
    intro s hs hocc
    match s with
    | [] => exact absurd (List.infix_nil.mp hocc) hold
    | c :: rest =>
      simp only [replaceAllAux]
      by_cases hpre : old.isPrefixOf (c :: rest)
      · rw [if_pos hpre]
        exact (List.prefix_append new _).isInfix
      · rw [if_neg hpre]
        have hocc' : old <:+: rest := by
          rcases List.infix_cons_iff.mp hocc with hp | hi
          · exact absurd ( List.isPrefixOf_iff_prefix.mpr hp) hpre
          · exact hi
        exact List.infix_cons (ih rest (by simpa using Nat.le_of_succ_le_succ hs) hocc')

theorem infix_pyReplace (s old new : List Char) (hold : old ≠ [])
    (hocc : old <:+: s) : new <:+: pyReplace s old new :=
  infix_replaceAllAux old new hold s.length s (Nat.le_refl _) hocc

theorem findIssuesCount_isInfix :
    ∀ l ds, findIssuesCount l = some ds → (ISSUES_LABEL ++ ds) <:+: l := by
  intro l
  induction l with
  | nil => intro ds h; simp [findIssuesCount] at h
  | cons c rest ih =>
    intro ds h
    rw [findIssuesCount] at h
    split at h
    · rename_i hcond
      obtain ⟨hpre, _⟩ := hcond
      have hds : ds = ((c :: rest).drop ISSUES_LABEL.length).takeWhile Char.isDigit :=
        (Option.some.injEq _ _).mp h.symm
      have hlab : ISSUES_LABEL <+: c :: rest := List.isPrefixOf_iff_prefix.mp hpre
      have heq : ISSUES_LABEL ++ (c :: rest).drop ISSUES_LABEL.length = c :: rest :=
        prefix_drop_append hlab
      have ht : ((c :: rest).drop ISSUES_LABEL.length).takeWhile Char.isDigit ++
          ((c :: rest).drop ISSUES_LABEL.length).dropWhile Char.isDigit =
          (c :: rest).drop ISSUES_LABEL.length :=
        List.takeWhile_append_dropWhile Char.isDigit _
      refine List.IsPrefix.isInfix
        ⟨((c :: rest).drop ISSUES_LABEL.length).dropWhile Char.isDigit, ?_⟩
      rw [hds, List.append_assoc, ht, heq]
    · exact List.infix_cons (ih ds h)

theorem digitChar_isDigit (n : Nat) : (digitChar n).isDigit = true := by
  unfold digitChar
  split <;> decide

theorem natReprAux_isDigit :
    ∀ f n c, c ∈ natReprAux f n → c.isDigit = true := by
  intro f
  induction f with
  | zero => intro n c hc; simp [natReprAux] at hc
  | succ f ih =>
    intro n c hc
    rw [natReprAux] at hc
    by_cases hn : n < 10
    · rw [if_pos hn] at hc
      rw [List.mem_singleton.mp hc]
      exact digitChar_isDigit n
    · rw [if_neg hn] at hc
      rcases List.mem_append.mp hc with h1 | h2
      · exact ih _ c h1
      · rw [List.mem_singleton.mp h2]
        exact digitChar_isDigit _

theorem mem_intRepr (v : Int) (c : Char) (hc : c ∈ intRepr v) :
    c.isDigit = true ∨ c = '-' := by
  match v with
  | Int.ofNat n => exact Or.inl (natReprAux_isDigit _ n c hc)
  | Int.negSucc n =>
    rcases List.mem_cons.mp hc with rfl | hmem
    · exact Or.inr rfl
    · exact Or.inl (natReprAux_isDigit _ _ c hmem)

theorem hash_not_mem_intRepr (v : Int) : '#' ∉ intRepr v := by
  intro h
  rcases mem_intRepr v '#' h with h1 | h2
  · exact absurd h1 (by decide)
  · exact absurd h2 (by decide)

theorem kept_parts_no_magic (content : List Char) :
    ∀ p ∈ kept_parts content, ¬ MAGIC <:+: p := by
  intro p hp hinf
  rw [kept_parts] at hp
  have hmem := (List.mem_filter.mp hp).2
  have hc : containsSub MAGIC p = true := (containsSub_iff MAGIC p).mpr hinf
  rw [hc] at hmem
  exact absurd hmem (by decide)

theorem magic_not_infix_new_content (content : List Char) :
    ¬ MAGIC <:+: new_content content := by
  have hM : MAGIC = '#' :: toL "### Magic value" := by decide
  have hS : SEPARATOR = '\n' :: toL "---" := by decide
  rw [new_content, hM, hS]
  apply not_infix_joinSep
  · decide
  · decide
  · intro p hp
    rw [← hM]
    exact kept_parts_no_magic content p hp

theorem filter_report_none (content : List Char)
    (h : findIssuesCount (new_content content) = none) :
    filter_report content = (new_content content, magic_value_count content) := by
  rw [filter_report]
  simp only [h]

theorem filter_report_some (content ds : List Char)
    (h : findIssuesCount (new_content content) = some ds) :
    filter_report content =
      (pyReplace (new_content content)
        (ISSUES_LABEL ++ natRepr (natOfDigits ds))
        (ISSUES_LABEL ++
          intRepr ((natOfDigits ds : Int) - (magic_value_count content : Int))),
       magic_value_count content) := by
  rw [filter_report]
  simp only [h]

theorem filter_report_snd (content : List Char) :
    (filter_report content).2 = magic_value_count content := by
  cases hf : findIssuesCount (new_content content) with
  | none => rw [filter_report_none content hf]
  | some ds => rw [filter_report_some content ds hf]

theorem label_append_ne_nil (l : List Char) : ISSUES_LABEL ++ l ≠ [] := by
  intro h
  have hL : ISSUES_LABEL = '-' :: toL " **Issues Found:** " := by decide
  rw [hL] at h
  simp at h

theorem magic_not_infix_output (content : List Char) :
    ¬ MAGIC <:+: (filter_report content).1 := by
  cases hf : findIssuesCount (new_content content) with
  | none =>
    rw [filter_report_none content hf]
    exact magic_not_infix_new_content content
  | some ds =>
    rw [filter_report_some content ds hf]
    rw [pyReplace_eq_joinSep _ _ _ (label_append_ne_nil _)]
    have hL : ISSUES_LABEL = '-' :: toL " **Issues Found:** " := by decide
    have hM : MAGIC = '#' :: toL "### Magic value" := by decide
    rw [hM, hL, List.cons_append]
    apply not_infix_joinSep
    · intro hmem
      rcases List.mem_cons.mp hmem with h1 | h2
      · exact absurd h1 (by decide)
      · rcases List.mem_append.mp h2 with h3 | h4
        · exact absurd h3 (by decide)
        · exact hash_not_mem_intRepr _ h4
    · decide
    · intro p hp
      rw [← hM]
      intro hinf
      have hpi : p <:+: new_content content := by
        have := splitOn_parts_isInfix (new_content content)
          (('-' :: toL " **Issues Found:** ") ++ natRepr (natOfDigits ds)) p hp
        exact this
      exact magic_not_infix_new_content content (hinf.trans hpi)

theorem sep_ne_nil : SEPARATOR ≠ [] := by decide

theorem kept_parts_of_no_magic (content : List Char)
    (h : ∀ p ∈ parts content, ¬ MAGIC <:+: p) :
    kept_parts content = parts content := by
  rw [kept_parts]
  apply List.filter_eq_self.mpr
  intro p hp
  have hc : containsSub MAGIC p ≠ true := fun hc =>
    h p hp ((containsSub_iff MAGIC p).mp hc)
  simp [Bool.not_eq_true] at hc ⊢
  exact hc

theorem magic_value_count_of_no_magic (content : List Char)
    (h : ∀ p ∈ parts content, ¬ MAGIC <:+: p) :
    magic_value_count content = 0 := by
  rw [magic_value_count, List.length_eq_zero, List.filter_eq_nil_iff]
  intro p hp hc
  exact h p hp ((containsSub_iff MAGIC p).mp hc)

theorem new_content_of_no_magic (content : List Char)
    (h : ∀ p ∈ parts content, ¬ MAGIC <:+: p) :
    new_content content = content := by
  rw [new_content, kept_parts_of_no_magic content h, parts]
  exact joinSep_splitOn content SEPARATOR sep_ne_nil

/-- A pass of `filter_report` over a report none of whose blocks contains
the marker returns the report unchanged and removes nothing: the count
rewrite, when the pattern is found, replaces the original summary string
with itself since `new_count = original_count - 0`. -/
theorem filter_report_of_no_magic (content : List Char)
    (h : ∀ p ∈ parts content, ¬ MAGIC <:+: p) :
    filter_report content = (content, 0) := by
  have hnc := new_content_of_no_magic content h
  have hmc := magic_value_count_of_no_magic content h
  cases hf : findIssuesCount (new_content content) with
  | none =>
    rw [filter_report_none content hf, hnc, hmc]
  | some ds =>
    rw [filter_report_some content ds hf, hnc, hmc]
    have hv : ((natOfDigits ds : Int) - ((0 : Nat) : Int)) =
        Int.ofNat (natOfDigits ds) := by
      simp
    rw [hv]
    have hint : intRepr (Int.ofNat (natOfDigits ds)) = natRepr (natOfDigits ds) := rfl
    rw [hint, pyReplace_self content _ (label_append_ne_nil _)]

theorem splitOnAux_no_sep (sep : List Char) (hsep : sep ≠ []) :
    ∀ f l, l.length ≤ f → ∀ p ∈ splitOnAux sep f l, ¬ sep <:+: p := by
  intro f
  induction f with
  | zero =>
    intro l hl p hp hinf
    have hnil : l = [] := List.length_eq_zero.mp (Nat.le_zero.mp hl)
    subst hnil
    simp only [splitOnAux, List.mem_singleton] at hp
    subst hp
    exact hsep (List.infix_nil.mp hinf)
  | succ f ih =>
    intro l hl p hp hinf
    match l with
    | [] =>
      simp only [splitOnAux, List.mem_singleton] at hp
      subst hp
      exact hsep (List.infix_nil.mp hinf)
    | c :: rest =>
      have hone : 1 ≤ sep.length := by
        cases sep with
        | nil => exact absurd rfl hsep
        | cons a s => simp
      simp only [splitOnAux] at hp
      by_cases hpre : sep.isPrefixOf (c :: rest)
      · rw [if_pos hpre] at hp
        rcases List.mem_cons.mp hp with rfl | hmem
        · exact hsep (List.infix_nil.mp hinf)
        · have hdl : ((c :: rest).drop sep.length).length ≤ f := by
            simp only [List.length_drop]
            omega
          exact ih _ hdl p hmem hinf
      · rw [if_neg hpre] at hp
        obtain ⟨h, t, hsplit⟩ : ∃ h t, splitOnAux sep f rest = h :: t := by
          match hx : splitOnAux sep f rest with
          | [] => exact absurd hx (splitOnAux_ne_nil sep f rest)
          | a :: b => exact ⟨a, b, rfl⟩
        rw [hsplit] at hp
        have hrest : rest.length ≤ f := by simpa using Nat.le_of_succ_le_succ hl
        rcases List.mem_cons.mp hp with rfl | hmem
        · rcases List.infix_cons_iff.mp hinf with hp1 | hi1
          · obtain ⟨h', t', heq, hhp, _⟩ := splitOnAux_structure sep f rest
            rw [hsplit] at heq
            have hh : h = h' := ((List.cons.injEq _ _ _ _).mp heq).1
            have hhp' : h <+: rest := by rw [hh]; exact hhp
            have : sep <+: c :: rest :=
              hp1.trans (List.cons_prefix_cons.mpr ⟨rfl, hhp'⟩)
            exact hpre ( List.isPrefixOf_iff_prefix.mpr this)
          · exact ih rest hrest h (by rw [hsplit]; exact List.mem_cons_self _ _) hi1
        · exact ih rest hrest p (by rw [hsplit]; exact List.mem_cons_of_mem _ hmem) hinf

theorem splitOn_no_sep (content sep : List Char) (hsep : sep ≠ []) :
    ∀ p ∈ splitOn content sep, ¬ sep <:+: p :=
  splitOnAux_no_sep sep hsep content.length content (Nat.le_refl _)

/-- Claim C1: every block retained by `filter_report` does not contain the
substring `#### Magic value`, every discarded block (any split part that is
not retained) does contain it, the removed count is exactly the number of
parts containing the marker (a pure substring test), and the retained
blocks keep their original order (they form a sublist of the split). -/
theorem c1_predicate_correctness (content : List Char) :
    (∀ p ∈ kept_parts content, ¬ MAGIC <:+: p) ∧
    (∀ p ∈ parts content, p ∉ kept_parts content → MAGIC <:+: p) ∧
    (filter_report content).2 =
      ((parts content).filter (fun p => containsSub MAGIC p)).length ∧
    (kept_parts content).Sublist (parts content) := by
  refine ⟨kept_parts_no_magic content, ?_, ?_, ?_⟩
  · intro p hp hnk
    by_contra hni
    apply hnk
    rw [kept_parts]
    apply List.mem_filter.mpr
    refine ⟨hp, ?_⟩
    have hc : containsSub MAGIC p = false := by
      cases hcs : containsSub MAGIC p with
      | false => rfl
      | true => exact absurd ((containsSub_iff MAGIC p).mp hcs) hni
    rw [hc]
    rfl
  · rw [filter_report_snd content, magic_value_count]
  · rw [kept_parts]
    exact List.filter_sublist _

theorem c1_predicate_correctness_witness :
    ¬ MAGIC <:+: toL "Header\n- **Issues Found:** 3" ∧
      MAGIC <:+: toL "\n#### Magic value\nfoo" :=
  ⟨(c1_predicate_correctness scenarioA).1 (toL "Header\n- **Issues Found:** 3")
      (by decide),
    (c1_predicate_correctness scenarioA).2.1 (toL "\n#### Magic value\nfoo")
      (by decide) (by decide)⟩

/-- Claim C2 counterexample: on the input
`- **Issues Found:** 007\n---\n#### Magic value` the rejoined text contains
the summary pattern with value `C = 7` and `removedCount = 1`, but the
output summary line still reads `007` (value `7`): `str.replace` looks for
`- **Issues Found:** 7`, which does not occur, so the claimed value
`C - removedCount = 6` appears nowhere in the output. -/
theorem c2_counterexample :
    filter_report (toL "- **Issues Found:** 007\n---\n#### Magic value") =
      (toL "- **Issues Found:** 007", 1) ∧
    findIssuesCount
      (new_content (toL "- **Issues Found:** 007\n---\n#### Magic value")) =
      some (toL "007") ∧
    natOfDigits (toL "007") = 7 ∧
    ¬ (toL "- **Issues Found:** 6") <:+:
      (filter_report (toL "- **Issues Found:** 007\n---\n#### Magic value")).1 := by
  refine ⟨by decide, by decide, by decide, ?_⟩
  intro h
  exact absurd ((containsSub_iff _ _).mpr h) (by decide)

/-- Claim C2 (amended): when the first match of the summary pattern in the
rejoined text has digit group `ds` written canonically (no leading zeros,
i.e. `ds = natRepr (natOfDigits ds)`), the output contains the summary
line with value `natOfDigits ds - removedCount`, and the reported removed
count is the number of discarded blocks. -/
theorem c2_count_arithmetic (content ds : List Char)
    (hf : findIssuesCount (new_content content) = some ds)
    (hcanon : ds = natRepr (natOfDigits ds)) :
    (filter_report content).2 = magic_value_count content ∧
    (ISSUES_LABEL ++ intRepr ((natOfDigits ds : Int) -
        (magic_value_count content : Int))) <:+: (filter_report content).1 := by
  refine ⟨filter_report_snd content, ?_⟩
  rw [filter_report_some content ds hf]
  apply infix_pyReplace _ _ _ (label_append_ne_nil _)
  have hocc : (ISSUES_LABEL ++ ds) <:+: new_content content :=
    findIssuesCount_isInfix _ ds hf
  rw [← hcanon]
  exact hocc

theorem c2_count_arithmetic_witness :
    (filter_report scenarioA).2 = magic_value_count scenarioA ∧
    (ISSUES_LABEL ++ intRepr ((natOfDigits (toL "3") : Int) -
        (magic_value_count scenarioA : Int))) <:+: (filter_report scenarioA).1 :=
  c2_count_arithmetic scenarioA (toL "3") (by decide) (by decide)

/-- Claim C3 counterexample: on an input whose rejoined text holds two
occurrences of the exact original line `- **Issues Found:** 3`,
`filter_report` rewrites both (Python `str.replace` replaces every
occurrence), so the second occurrence does not stay unchanged: the
original string no longer occurs anywhere in the output. -/
theorem c3_counterexample :
    filter_report
        (toL "- **Issues Found:** 3\nx- **Issues Found:** 3\n---\n#### Magic value") =
      (toL "- **Issues Found:** 2\nx- **Issues Found:** 2", 1) ∧
    ¬ (toL "- **Issues Found:** 3") <:+:
      (filter_report
        (toL "- **Issues Found:** 3\nx- **Issues Found:** 3\n---\n#### Magic value")).1 := by
  refine ⟨by decide, ?_⟩
  intro h
  exact absurd ((containsSub_iff _ _).mpr h) (by decide)

/-- Claim C3 (amended): when the summary pattern is found with original
value `C`, `filter_report` replaces every literal occurrence of the exact
original string `- **Issues Found:** C`, not only the first: the output is
the rejoined text split on that string (the split parts contain no
occurrence of it) and re-joined with the replacement string. -/
theorem c3_replaces_every_occurrence (content ds : List Char)
    (hf : findIssuesCount (new_content content) = some ds) :
    (filter_report content).1 =
      joinSep (ISSUES_LABEL ++ intRepr ((natOfDigits ds : Int) -
          (magic_value_count content : Int)))
        (splitOn (new_content content) (ISSUES_LABEL ++ natRepr (natOfDigits ds))) ∧
    ∀ p ∈ splitOn (new_content content) (ISSUES_LABEL ++ natRepr (natOfDigits ds)),
      ¬ (ISSUES_LABEL ++ natRepr (natOfDigits ds)) <:+: p := by
  constructor
  · rw [filter_report_some content ds hf]
    exact pyReplace_eq_joinSep _ _ _ (label_append_ne_nil _)
  · exact splitOn_no_sep _ _ (label_append_ne_nil _)

theorem c3_replaces_every_occurrence_witness :
    (filter_report scenarioA).1 =
      joinSep (ISSUES_LABEL ++ intRepr ((natOfDigits (toL "3") : Int) -
          (magic_value_count scenarioA : Int)))
        (splitOn (new_content scenarioA) (ISSUES_LABEL ++ natRepr (natOfDigits (toL "3")))) ∧
    ∀ p ∈ splitOn (new_content scenarioA) (ISSUES_LABEL ++ natRepr (natOfDigits (toL "3"))),
      ¬ (ISSUES_LABEL ++ natRepr (natOfDigits (toL "3"))) <:+: p :=
  c3_replaces_every_occurrence scenarioA (toL "3") (by decide)

/-- Claim C4 counterexample: on the spec's own Scenario A input the split
yields 3 parts, 2 are retained and 1 removed, so
`len(retainedBlocks) + removedCount = 3 = len(originalBlocks)`, not
`len(originalBlocks) - 1 = 2`: the loop of lines 29-37 tests every part,
the header block included, so nothing is subtracted for the header. -/
theorem c4_counterexample :
    (kept_parts scenarioA).length = 2 ∧
    magic_value_count scenarioA = 1 ∧
    (parts scenarioA).length = 3 ∧
    ¬ ((kept_parts scenarioA).length + magic_value_count scenarioA =
        (parts scenarioA).length - 1) := by
  decide

/-- Claim C4 (amended): for every input,
`len(retainedBlocks) + removedCount = len(originalBlocks)` (without
subtracting one: the header part runs through the same filter loop and is
retained whenever it lacks the marker). -/
theorem c4_block_count_conservation (content : List Char) :
    (kept_parts content).length + magic_value_count content =
      (parts content).length := by
  rw [kept_parts, magic_value_count, Nat.add_comm]
  exact (List.length_eq_length_filter_add
    (fun p => containsSub MAGIC p)).symm

/-- Claim C5: if no split part contains `#### Magic value` the output is
byte-identical to the input with `removedCount = 0`; and in general every
retained block reappears byte-for-byte (as a contiguous run) in the text
rejoined with the exact separator `\n---`. -/
theorem c5_no_match_roundtrip (content : List Char) :
    ((∀ p ∈ parts content, ¬ MAGIC <:+: p) →
      filter_report content = (content, 0)) ∧
    ∀ p ∈ kept_parts content, p <:+: new_content content := by
  constructor
  · exact filter_report_of_no_magic content
  · rw [new_content]
    exact mem_joinSep_isInfix SEPARATOR (kept_parts content)

theorem c5_no_match_roundtrip_witness :
    filter_report scenarioB = (scenarioB, 0) ∧
      (toL "\nA") <:+: new_content scenarioB :=
  ⟨(c5_no_match_roundtrip scenarioB).1 (by decide),
    (c5_no_match_roundtrip scenarioB).2 (toL "\nA") (by decide)⟩

/-- Claim C6: applying `filter_report` to its own output removes nothing
and returns the text unchanged.  After one pass no retained block contains
the marker, the joined text cannot contain it across separator boundaries
(the marker holds neither a newline nor a hyphen), and the summary rewrite
of a zero-removal pass replaces the original summary string with itself. -/
theorem c6_idempotent_after_one_pass (content : List Char) :
    filter_report ((filter_report content).1) = ((filter_report content).1, 0) := by
  apply filter_report_of_no_magic
  intro p hp hinf
  exact magic_not_infix_output content
    (hinf.trans (splitOn_parts_isInfix _ _ p hp))

/-- Claim C7: when the summary pattern occurs nowhere in the rejoined
text, `filter_report` returns that text unchanged (the replacement branch
is skipped; the embedding is a total function, mirroring that the code
raises no exception on this path). -/
theorem c7_pattern_not_found (content : List Char)
    (h : findIssuesCount (new_content content) = none) :
    (filter_report content).1 = new_content content := by
  rw [filter_report_none content h]

theorem c7_pattern_not_found_witness :
    (filter_report (toL "no count here\n---\nblock")).1 =
      new_content (toL "no count here\n---\nblock") :=
  c7_pattern_not_found (toL "no count here\n---\nblock") (by decide)

/-- Claim C10: the filter loop tests the first (header) part with the same
marker predicate: if the first split part contains `#### Magic value` it
is discarded and counted, so the retained sequence is the filtered tail
and the removed count is one more than the number of marked tail parts. -/
theorem c10_header_block_filtered (content : List Char) (p : List Char)
    (rest : List (List Char)) (hparts : parts content = p :: rest)
    (hmagic : MAGIC <:+: p) :
    kept_parts content = rest.filter (fun q => ! containsSub MAGIC q) ∧
    magic_value_count content =
      (rest.filter (fun q => containsSub MAGIC q)).length + 1 := by
  have hc : containsSub MAGIC p = true := (containsSub_iff MAGIC p).mpr hmagic
  constructor
  · rw [kept_parts, hparts, List.filter_cons]
    rw [hc]
    rfl
  · rw [magic_value_count, hparts, List.filter_cons]
    rw [hc]
    simp [Nat.add_comm]

theorem c10_header_block_filtered_witness :
    kept_parts (toL "#### Magic value\n- **Issues Found:** 2\n---\nOK") =
      [toL "\nOK"] ∧
    magic_value_count (toL "#### Magic value\n- **Issues Found:** 2\n---\nOK") =
      0 + 1 :=
  c10_header_block_filtered
    (toL "#### Magic value\n- **Issues Found:** 2\n---\nOK")
    (toL "#### Magic value\n- **Issues Found:** 2") [toL "\nOK"]
    (by decide) (by decide)

/-- Claim C8: with fewer than two path arguments (`len(sys.argv) < 3`) the
CLI prints the usage message, exits with status 1 and attempts no file
I/O; with two path arguments it runs the filter, writes its output text,
prints the removed count and exits 0. -/
theorem c8_cli_usage_and_success (argv : List (List Char))
    (inputContent : List Char) :
    (argv.length < 3 → cliMain argv inputContent = (1, true, none)) ∧
    (3 ≤ argv.length →
      cliMain argv inputContent =
        (0, false, some (filter_report inputContent))) := by
  constructor
  · intro h
    rw [cliMain, if_pos h]
  · intro h
    rw [cliMain, if_neg (Nat.not_lt.mpr h)]

theorem c8_cli_usage_and_success_witness :
    cliMain [toL "clean_report.py"] scenarioB = (1, true, none) ∧
    cliMain [toL "clean_report.py", toL "in.md", toL "out.md"] scenarioB =
      (0, false, some (filter_report scenarioB)) :=
  ⟨(c8_cli_usage_and_success [toL "clean_report.py"] scenarioB).1 (by decide),
    (c8_cli_usage_and_success
      [toL "clean_report.py", toL "in.md", toL "out.md"] scenarioB).2
      (by decide)⟩

end CleanReport

namespace GenJwt

open CleanReport (toL natRepr natReprAux digitChar containsSub containsSub_iff)

theorem b64v_b64c : ∀ n, n < 64 → b64v (b64c n) = n := by decide

theorem b64c_ne_dot (n : Nat) : b64c n ≠ '.' := by
  unfold b64c
  split <;> decide

theorem mem_b64urlEncode_ne_dot :
    ∀ (bs : List Nat), ∀ c ∈ b64urlEncode bs, c ≠ '.'
  | [] => by simp [b64urlEncode]
  | [b1] => by
    intro c hc
    simp only [b64urlEncode, List.mem_cons, List.not_mem_nil, or_false] at hc
    rcases hc with rfl | rfl <;> exact b64c_ne_dot _
  | [b1, b2] => by
    intro c hc
    simp only [b64urlEncode, List.mem_cons, List.not_mem_nil, or_false] at hc
    rcases hc with rfl | rfl | rfl <;> exact b64c_ne_dot _
  | b1 :: b2 :: b3 :: rest => by
    intro c hc
    simp only [b64urlEncode, List.mem_cons] at hc
    rcases hc with rfl | rfl | rfl | rfl | hmem
    · exact b64c_ne_dot _
    · exact b64c_ne_dot _
    · exact b64c_ne_dot _
    · exact b64c_ne_dot _
    · exact mem_b64urlEncode_ne_dot rest c hmem

/-- Base64url decoding inverts the padding-stripped encoding on byte
input. -/
theorem b64_roundtrip :
    ∀ (bs : List Nat), (∀ b ∈ bs, b < 256) →
      b64urlDecode (b64urlEncode bs) = bs
  | [] => fun _ => rfl
  | [b1] => fun h => by
    have hb1 : b1 < 256 := h b1 (by simp)
    simp only [b64urlEncode, b64urlDecode]
    rw [b64v_b64c _ (by omega), b64v_b64c _ (by omega)]
    simp only [List.cons.injEq, and_true]
    omega
  | [b1, b2] => fun h => by
    have hb1 : b1 < 256 := h b1 (by simp)
    have hb2 : b2 < 256 := h b2 (by simp)
    simp only [b64urlEncode, b64urlDecode]
    rw [b64v_b64c _ (by omega), b64v_b64c _ (by omega), b64v_b64c _ (by omega)]
    simp only [List.cons.injEq, and_true]
    refine ⟨by omega, by omega⟩
  | b1 :: b2 :: b3 :: rest => fun h => by
    have hb1 : b1 < 256 := h b1 (by simp)
    have hb2 : b2 < 256 := h b2 (by simp)
    have hb3 : b3 < 256 := h b3 (by simp)
    have ih := b64_roundtrip rest (fun b hb => h b (by simp [hb]))
    simp only [b64urlEncode, b64urlDecode]
    rw [b64v_b64c _ (by omega), b64v_b64c _ (by omega), b64v_b64c _ (by omega),
      b64v_b64c _ (by omega), ih]
    simp only [List.cons.injEq, and_true]
    refine ⟨by omega, by omega, by omega⟩

theorem digitChar_toNat_lt (n : Nat) : (digitChar n).toNat < 256 := by
  unfold CleanReport.digitChar
  split <;> decide

theorem natReprAux_toNat_lt :
    ∀ f n c, c ∈ natReprAux f n → c.toNat < 256 := by
  intro f
  induction f with
  | zero =>
    intro n c hc
    simp [CleanReport.natReprAux] at hc
  | succ f ih =>
    intro n c hc
    rw [CleanReport.natReprAux] at hc
    by_cases hn : n < 10
    · rw [if_pos hn] at hc
      rw [List.mem_singleton.mp hc]
      exact digitChar_toNat_lt n
    · rw [if_neg hn] at hc
      rcases List.mem_append.mp hc with h1 | h2
      · exact ih _ c h1
      · rw [List.mem_singleton.mp h2]
        exact digitChar_toNat_lt _

theorem payloadJson_bytes_lt (now : Nat) :
    ∀ b ∈ charBytes (payloadJson now), b < 256 := by
  intro b hb
  rw [charBytes, List.mem_map] at hb
  obtain ⟨c, hc, rfl⟩ := hb
  rw [payloadJson] at hc
  rcases List.mem_append.mp hc with h1 | h2
  · rcases List.mem_append.mp h1 with h3 | h4
    · have hall : ∀ x ∈ toL "\x7b\"sub\": \"jwt-user-123\", \"scope\": \"read:files\", \"iss\": \"https://test.mcp-guard.io\", \"aud\": \"mcp-guard\", \"exp\": ",
          x.toNat < 256 := by decide
      exact hall c h3
    · exact natReprAux_toNat_lt _ _ c h4
  · have hall : ∀ x ∈ toL "\x7d", x.toNat < 256 := by decide
    exact hall c h2

theorem dotSplit_append (xs ys : List Char) (hx : '.' ∉ xs) :
    dotSplit (xs ++ '.' :: ys) = xs :: dotSplit ys := by
  induction xs with
  | nil =>
    show dotSplit ('.' :: ys) = [] :: dotSplit ys
    simp [dotSplit]
  | cons c xs' ih =>
    have hc : c ≠ '.' := by
      intro h
      exact hx (by rw [h]; exact List.mem_cons_self _ _)
    have hx' : '.' ∉ xs' := fun h => hx (List.mem_cons_of_mem _ h)
    rw [List.cons_append]
    simp only [dotSplit]
    rw [if_neg hc, ih hx']

/-- Claim C9: for every generation time `now` and every signature byte
list, the second dot-segment of the printed token base64url-decodes to
the bytes of the payload JSON, which carries the pair
`"aud": "mcp-guard"` and ends with the pair `"exp": now + 3600`, an
expiry strictly greater than the generation time. -/
theorem c9_token_payload (now : Nat) (sig : List Nat) :
    (dotSplit (token sig now))[1]? =
      some (b64urlEncode (charBytes (payloadJson now))) ∧
    b64urlDecode (b64urlEncode (charBytes (payloadJson now))) =
      charBytes (payloadJson now) ∧
    (toL "\"aud\": \"mcp-guard\"") <:+: payloadJson now ∧
    (toL "\"exp\": " ++ natRepr (now + 3600) ++ toL "\x7d") <:+ payloadJson now ∧
    now < now + 3600 := by
  refine ⟨?_, b64_roundtrip _ (payloadJson_bytes_lt now), ?_, ?_, by omega⟩
  · rw [token,
      dotSplit_append _ _ (fun h => mem_b64urlEncode_ne_dot _ '.' h rfl),
      dotSplit_append _ _ (fun h => mem_b64urlEncode_ne_dot _ '.' h rfl)]
    simp
  · have h1 : (toL "\"aud\": \"mcp-guard\"") <:+:
        toL "\x7b\"sub\": \"jwt-user-123\", \"scope\": \"read:files\", \"iss\": \"https://test.mcp-guard.io\", \"aud\": \"mcp-guard\", \"exp\": " := by
      apply (containsSub_iff _ _).mp
      decide
    have h2 : toL "\x7b\"sub\": \"jwt-user-123\", \"scope\": \"read:files\", \"iss\": \"https://test.mcp-guard.io\", \"aud\": \"mcp-guard\", \"exp\": " <+:
        payloadJson now :=
      ⟨natRepr (now + 3600) ++ toL "\x7d", by rw [payloadJson, List.append_assoc]⟩
    exact h1.trans h2.isInfix
  · have heq : toL "\x7b\"sub\": \"jwt-user-123\", \"scope\": \"read:files\", \"iss\": \"https://test.mcp-guard.io\", \"aud\": \"mcp-guard\", \"exp\": " =
        toL "\x7b\"sub\": \"jwt-user-123\", \"scope\": \"read:files\", \"iss\": \"https://test.mcp-guard.io\", \"aud\": \"mcp-guard\", " ++
          toL "\"exp\": " := by decide
    rw [payloadJson, heq]
    refine ⟨toL "\x7b\"sub\": \"jwt-user-123\", \"scope\": \"read:files\", \"iss\": \"https://test.mcp-guard.io\", \"aud\": \"mcp-guard\", ", ?_⟩
    simp [List.append_assoc]

end GenJwt
